import Mathlib

/-!
Verification of the keyboard-input core of the sh-dungeon repository
(src/engine/keyboard.py) against its natural-language specification.

The embedding is shallow:
* the `Keys` class constants and its three decode dictionaries become string
  constants and association lists;
* the parsing loop of `Keyboard._read_into_buffer` becomes the pure functions
  `decodeStep` (one iteration of the `while data:` loop) and `decodeRun`
  (the whole loop, driven by a fuel argument  that is always instantiated
  with the length of the input, which bounds the number of iterations since
  every iteration consumes at least one character);
* Python exceptions escaping the loop (KeyError / IndexError / AssertionError)
  become the `DecodeError` inductive; an error aborts the loop, keeping the
  tokens appended so far and dropping the rest of the input, exactly as an
  uncaught exception does in the Python code;
* terminal state (`termios` attributes, the class-level `_owner` slot, the
  instance buffer) becomes the `KeyboardState` structure, and
  `__enter__` / `__exit__` / `getch` / `clear` become pure state-passing
  functions.  `tty.setcbreak` is modelled as clearing the echo and icanon
  flags of the attribute record (that is what cbreak mode is); the attribute
  snapshot itself is carried around verbatim.
* the currently available raw input of `sys.stdin` is an explicit
  `pending : List Char` argument (the code decodes the bytes as UTF-8 before
  parsing, so the unit of input here is a character); `select.select` with a
  zero timeout is ready iff `pending` is nonempty.
-/

namespace Keys

def PAGE_UP : String := "KEY_PAGE_UP"
def PAGE_DOWN : String := "KEY_PAGE_DOWN"
def UP : String := "KEY_UP"
def DOWN : String := "KEY_DOWN"
def RIGHT : String := "KEY_RIGHT"
def LEFT : String := "KEY_LEFT"
def ESC : String := "KEY_ESC"
def ENTER : String := "KEY_ENTER"
def SPACE : String := "KEY_SPACE"
def BACKSPACE : String := "KEY_BACKSPACE"
def TAB : String := "KEY_TAB"
def INSERT : String := "KEY_INSERT"
def DELETE : String := "KEY_DELETE"
def END : String := "KEY_END"
def HOME : String := "KEY_HOME"
def F1 : String := "KEY_F1"
def F2 : String := "KEY_F2"
def F3 : String := "KEY_F3"
def F4 : String := "KEY_F4"
def F5 : String := "KEY_F5"
def F6 : String := "KEY_F6"
def F7 : String := "KEY_F7"
def F8 : String := "KEY_F8"
def F9 : String := "KEY_F9"
def F10 : String := "KEY_F10"
def F11 : String := "KEY_F11"
def F12 : String := "KEY_F12"

/-- The `KEYS_TABLE` dictionary of the `Keys` class: code point of a single
control character to named key. -/
def KEYS_TABLE : List (Nat × String) :=
  [(8, BACKSPACE), (9, TAB), (10, ENTER), (27, ESC), (32, SPACE),
   (127, BACKSPACE)]

/-- The `SS3_MAPPING` dictionary: code point of the byte after `ESC O`. -/
def SS3_MAPPING : List (Nat × String) :=
  [(80, F1), (81, F2), (82, F3), (83, F4)]

/-- The `CSI_TABLE` dictionary: terminator letter or numeric code (as a
string) to named key. -/
def CSI_TABLE : List (String × String) :=
  [("1", HOME), ("2", INSERT), ("3", DELETE), ("4", END), ("5", PAGE_UP),
   ("6", PAGE_DOWN), ("15", F5), ("17", F6), ("18", F7), ("19", F8),
   ("20", F9), ("21", F10), ("23", F11), ("24", F12),
   ("A", UP), ("B", DOWN), ("C", RIGHT), ("D", LEFT), ("F", END),
   ("H", HOME), ("Z", TAB)]

end Keys

/-- Dictionary lookup `KEYS_TABLE[n]` / `KEYS_TABLE.get(n)`. -/
def keysLookup (n : Nat) : Option String :=
  (Keys.KEYS_TABLE.find? (fun p => p.1 = n)).map (·.2)

/-- Dictionary lookup `SS3_MAPPING[n]`. -/
def ss3Lookup (n : Nat) : Option String :=
  (Keys.SS3_MAPPING.find? (fun p => p.1 = n)).map (·.2)

/-- Dictionary lookup `CSI_TABLE[code]`. -/
def csiLookup (code : String) : Option String :=
  (Keys.CSI_TABLE.find? (fun p => p.1 = code)).map (·.2)

/-- An exception escaping one iteration of the parsing loop of
`Keyboard._read_into_buffer`.  The constructor records which Python
exception at which program point it embeds. -/
inductive DecodeError where
  /-- KeyError from `Keys.SS3_MAPPING[ord(data[2])]`. -/
  | unknownSS3 (b : Nat)
  /-- KeyError from `Keys.CSI_TABLE[code]` (also used for `data[5]` in the
  extended-sequence branch). -/
  | unknownCSI (code : String)
  /-- IndexError from `data[2]` when the run is exactly `ESC 'O'`. -/
  | ss3IndexError
  /-- AssertionError from `assert len(data) >= 6` in the extended branch. -/
  | extTooShort
  /-- AssertionError from `assert len(data) >= 3` in the CSI branch. -/
  | csiTooShort
  /-- AssertionError from `assert '~' in data` in the numeric CSI branch. -/
  | csiNoTilde
  /-- Marker for calling the step on an empty run; the loop guard
  `while data:` makes this unreachable. -/
  | emptyRun
deriving DecidableEq, Repr

/-- The spec groups the table-lookup KeyErrors under the name
`UnknownSequence`. -/
def DecodeError.isUnknownSequence : DecodeError → Bool
  | .unknownSS3 _ => true
  | .unknownCSI _ => true
  | _ => false

/-- The spec groups the too-few-bytes failures (the two AssertionErrors on
lengths and the IndexError of the SS3 branch) under the name
`MalformedSequence`; the truncated numeric sequence (missing `~`) is of the
same nature. -/
def DecodeError.isMalformedSequence : DecodeError → Bool
  | .ss3IndexError => true
  | .extTooShort => true
  | .csiTooShort => true
  | .csiNoTilde => true
  | _ => false

/-- Model of Python `str.index(c)` restricted to characters: position of the
first occurrence of `c` (the value on a string not containing `c` is never
used, as the code guards the call with `assert '~' in data`). -/
def pyIndex (c : Char) : List Char → Nat
  | [] => 0
  | x :: xs => if x = c then 0 else pyIndex c xs + 1

/-- One iteration of the `while data:` loop of
`Keyboard._read_into_buffer`.  Returns the appended key together with `m`
such that `m + 1` characters are consumed (`data = data[m+1:]`), or the
exception raised by the iteration.

The branch structure mirrors the Python `startswith` chain:
`SS3 = ESC 'O'`, then `EXTENDED_ANSI_SEQ = ESC '[' '1' ';'`, then
`CSI = ESC '['`, then the plain-byte fallback; a pattern match in this
order tests exactly the same prefixes. -/
def decodeStep : List Char → Except DecodeError (String × Nat)
  | '\x1b' :: 'O' :: rest =>
    -- key = Keys.SS3_MAPPING[ord(data[2])]; data = data[3:]
    match rest with
    | [] => .error .ss3IndexError
    | c :: _ =>
      match ss3Lookup c.toNat with
      | none => .error (.unknownSS3 c.toNat)
      | some k => .ok (k, 2)
  | '\x1b' :: '[' :: '1' :: ';' :: rest =>
    -- assert len(data) >= 6; key = Keys.CSI_TABLE[data[5]]; data = data[6:]
    match rest with
    | _ :: c :: _ =>
      match csiLookup (String.mk [c]) with
      | none => .error (.unknownCSI (String.mk [c]))
      | some k => .ok (k, 5)
    | _ => .error .extTooShort
  | '\x1b' :: '[' :: rest =>
    -- assert len(data) >= 3
    match rest with
    | [] => .error .csiTooShort
    | c2 :: rtail =>
      if '0' ≤ c2 ∧ c2 ≤ '9' then
        -- assert '~' in data; pos = data.index('~'); code = data[2:pos]
        let data := '\x1b' :: '[' :: c2 :: rtail
        if data.contains '~' then
          let pos := pyIndex '~' data
          let code := (data.drop 2).take (pos - 2)
          let code := if code.contains ';' then code.takeWhile (· ≠ ';') else code
          match csiLookup (String.mk code) with
          | none => .error (.unknownCSI (String.mk code))
          | some k => .ok (k, pos)
        else .error .csiNoTilde
      else
        -- code = data[2]; data = data[3:]
        match csiLookup (String.mk [c2]) with
        | none => .error (.unknownCSI (String.mk [c2]))
        | some k => .ok (k, 2)
  | c :: _ =>
    -- key = Keys.KEYS_TABLE.get(ord(data[0]), data[0]); data = data[1:]
    .ok ((keysLookup c.toNat).getD (String.mk [c]), 0)
  | [] => .error .emptyRun

/-- The `while data:` loop of `Keyboard._read_into_buffer`, with an explicit
fuel bound on the number of iterations.  It returns the list of keys appended
to the buffer in order, and the exception that aborted the loop if one was
raised.  `decodeRun` below always supplies `data.length` as fuel, which is
sufficient because every iteration consumes at least one character. -/
def decodeLoop : Nat → List Char → List String × Option DecodeError
  | _, [] => ([], none)
  | 0, _ :: _ => ([], none)
  | fuel + 1, c :: cs =>
    match decodeStep (c :: cs) with
    | .error e => ([], some e)
    | .ok (k, m) =>
      let r := decodeLoop fuel ((c :: cs).drop (m + 1))
      (k :: r.1, r.2)

/-- The pure decoding performed by `Keyboard._read_into_buffer` on one run of
input characters: the tokens appended to the buffer, in order, and the
exception that escaped the call, if any. -/
def decodeRun (data : List Char) : List String × Option DecodeError :=
  decodeLoop data.length data

example : decodeRun ['\x1b', '[', 'A'] = ([Keys.UP], none) := by decide
example : decodeRun ['\x1b', '[', '1', '5', '~'] = ([Keys.F5], none) := by decide
example : decodeRun ['\x1b', 'O', 'P'] = ([Keys.F1], none) := by decide
example : decodeRun ['\x1b'] = ([Keys.ESC], none) := by decide
example : decodeRun ['a'] = (["a"], none) := by decide
example : decodeRun ['\x1b', '[', '9', '9', '~'] =
    ([], some (.unknownCSI "99")) := by decide
example : decodeRun ['\x1b', '[', '9', '9', '~', 'a'] =
    ([], some (.unknownCSI "99")) := by decide
example : decodeRun ['a', '\x1b', '[', '9', '9', '~', 'b'] =
    (["a"], some (.unknownCSI "99")) := by decide
example : decodeRun ['\x1b', 'O'] = ([], some .ss3IndexError) := by decide
example : decodeRun ['\x1b', '['] = ([], some .csiTooShort) := by decide
example : decodeRun ['\x1b', '[', '1', ';'] = ([], some .extTooShort) := by decide
example : decodeRun ['\x1b', '[', '1', ';', '2'] = ([], some .extTooShort) := by decide
example : decodeRun ['\x1b', '[', '1', ';', '2', 'A'] = ([Keys.UP], none) := by decide
example : decodeRun ['\x1b', '[', '1', ';', '2', 'H', 'x'] =
    ([Keys.HOME, "x"], none) := by decide

/-- The numeric code extracted by the numeric CSI branch, exactly as the
code slices it: `code = data[2:pos]` for `pos = data.index('~')`, then
`code.split(';')[0]` when a semicolon is present. -/
def csiCode (c2 : Char) (rtail : List Char) : List Char :=
  let data := '\x1b' :: '[' :: c2 :: rtail
  let pos := pyIndex '~' data
  let code := (data.drop 2).take (pos - 2)
  if code.contains ';' then code.takeWhile (· ≠ ';') else code

/-! ## Terminal state and the Keyboard lifecycle -/

/-- A `termios` attribute record as far as the model needs it: the two flags
that `tty.setcbreak` clears, plus an opaque payload standing for every other
field, so that snapshots can be compared for exact equality. -/
structure TermiosAttrs where
  echo : Bool
  icanon : Bool
  rest : Nat
deriving DecidableEq, Repr

/-- Model of `tty.setcbreak(fd)`: switch the terminal to
character-at-a-time mode, clearing canonical line processing and local
echo and leaving everything else as it was. -/
def setcbreak (a : TermiosAttrs) : TermiosAttrs :=
  { a with echo := false, icanon := false }

/-- Joint state of the class-level `Keyboard._owner` slot, the terminal
device, and the fields of the (owning) `Keyboard` instance.  Instances are
identified by a `Nat` handle. -/
structure KeyboardState where
  /-- The class variable `Keyboard._owner`. -/
  owner : Option Nat
  /-- The current attribute set of the terminal device. -/
  attrs : TermiosAttrs
  /-- The instance attribute `_original_settings` (absent outside an
  acquisition). -/
  saved : Option TermiosAttrs
  /-- The instance deque `_buffer` of decoded, unconsumed tokens. -/
  buffer : List String
deriving DecidableEq, Repr

/-- An exception escaping one of the `Keyboard` methods. -/
inductive KbdError where
  /-- AssertionError of `__enter__` (`Keyboard already ???`): the spec's
  `ExclusivityViolation`. -/
  | exclusivityViolation
  /-- AssertionError of `__exit__`: the spec's `NotOwner`. -/
  | notOwner
  /-- AssertionError of `getch` (`You must initialize Keyboard first!`). -/
  | notInitialized
  /-- A decode exception propagating out of `_read_into_buffer`. -/
  | decodeFailed (e : DecodeError)
  /-- AttributeError reading a deleted `_original_settings` (unreachable
  while the owner invariant holds). -/
  | attributeError
  /-- IndexError popping an empty deque (unreachable: a successful decode of
  a nonempty run appends at least one token). -/
  | popEmpty
deriving DecidableEq, Repr

/-- `Keyboard.__enter__` (the spec's `acquire`): returns the state after the
call together with the exception, if one was raised.  On the error path the
state is returned unchanged, as the assertion is the first statement of the
method. -/
def Keyboard.enter (self : Nat) (s : KeyboardState) :
    KeyboardState × Option KbdError :=
  if s.owner.isSome then (s, some .exclusivityViolation)
  else
    ({ s with owner := some self,
              saved := some s.attrs,
              attrs := setcbreak s.attrs }, none)

/-- `Keyboard.__exit__` (the spec's `release`): restore the saved snapshot
verbatim, delete it, and clear the owner slot; fails first if the caller is
not the current owner. -/
def Keyboard.exit (self : Nat) (s : KeyboardState) :
    KeyboardState × Option KbdError :=
  if s.owner = some self then
    match s.saved with
    | some a => ({ s with attrs := a, saved := none, owner := none }, none)
    | none => (s, some .attributeError)
  else (s, some .notOwner)

/-- `Keyboard.getch(block)` (the spec's `next`).  `pending` is the raw input
currently available on stdin; `select.select` is ready iff it is nonempty.
The result is `none` when the call blocks indefinitely (empty buffer, no
available data, `block = True` and no further input ever arrives), and
otherwise carries the returned token (`none` standing for Python `None`,
the "no data available" result) or the escaping exception, together with the
state and the input left unconsumed. -/
def Keyboard.getch (self : Nat) (s : KeyboardState) (pending : List Char)
    (block : Bool) :
    Option (Except KbdError (Option String) × KeyboardState × List Char) :=
  if s.owner = some self then
    match s.buffer with
    | t :: ts => some (.ok (some t), { s with buffer := ts }, pending)
    | [] =>
      if pending = [] then
        if block then none
        else some (.ok none, s, pending)
      else
        -- self._read_into_buffer()
        let r := decodeRun pending
        let s' := { s with buffer := s.buffer ++ r.1 }
        match r.2 with
        | some e => some (.error (.decodeFailed e), s', [])
        | none =>
          -- return self._buffer.popleft()
          match s'.buffer with
          | t :: ts => some (.ok (some t), { s' with buffer := ts }, [])
          | [] => some (.error .popEmpty, s', [])
  else some (.error .notInitialized, s, pending)

/-- `Keyboard.clear()`: drain currently available input (never blocking),
then empty the buffer.  Returns the state after the call and the remaining
pending input, with the exception if the drain's decode raised one (in which
case the final `buffer.clear()` is never reached). -/
def Keyboard.clear (s : KeyboardState) (pending : List Char) :
    (KeyboardState × List Char) × Option KbdError :=
  if pending = [] then (({ s with buffer := [] }, pending), none)
  else
    let r := decodeRun pending
    match r.2 with
    | some e => (({ s with buffer := s.buffer ++ r.1 }, []), some (.decodeFailed e))
    | none => (({ s with buffer := [] }, []), none)

/-! ## Spec-side material: named-key namespace, canonical encodings, and the
bit-exact tables as written in the specification -/

/-- The named keys defined by the `Keys` class, in declaration order. -/
def namedKeys : List String :=
  [Keys.PAGE_UP, Keys.PAGE_DOWN, Keys.UP, Keys.DOWN, Keys.RIGHT, Keys.LEFT,
   Keys.ESC, Keys.ENTER, Keys.SPACE, Keys.BACKSPACE, Keys.TAB, Keys.INSERT,
   Keys.DELETE, Keys.END, Keys.HOME, Keys.F1, Keys.F2, Keys.F3, Keys.F4,
   Keys.F5, Keys.F6, Keys.F7, Keys.F8, Keys.F9, Keys.F10, Keys.F11, Keys.F12]

/-- Modelled from the spec: the logical key namespace that section 6 of the
specification requires to be reproduced exactly. -/
def specNamespace : List String :=
  ["KEY_PAGE_UP", "KEY_PAGE_DOWN", "KEY_UP", "KEY_DOWN", "KEY_LEFT",
   "KEY_RIGHT", "KEY_ESC", "KEY_ENTER", "KEY_SPACE", "KEY_BACKSPACE",
   "KEY_TAB", "KEY_INSERT", "KEY_DELETE", "KEY_END", "KEY_HOME",
   "KEY_F1", "KEY_F2", "KEY_F3", "KEY_F4", "KEY_F5", "KEY_F6", "KEY_F7",
   "KEY_F8", "KEY_F9", "KEY_F10", "KEY_F11", "KEY_F12"]

/-- Modelled from the spec: the rows "byte 8 or 127 -> BACKSPACE, 9 -> TAB,
10 -> ENTER, 27 -> ESC, 32 -> SPACE" of the bit-exact decode table. -/
def specByteRows : List (Nat × String) :=
  [(8, "KEY_BACKSPACE"), (127, "KEY_BACKSPACE"), (9, "KEY_TAB"),
   (10, "KEY_ENTER"), (27, "KEY_ESC"), (32, "KEY_SPACE")]

/-- Modelled from the spec: the row "SS3 + byte 80/81/82/83 -> F1/F2/F3/F4"
of the bit-exact decode table. -/
def specSS3Rows : List (Nat × String) :=
  [(80, "KEY_F1"), (81, "KEY_F2"), (82, "KEY_F3"), (83, "KEY_F4")]

/-- Modelled from the spec: the CSI rows of the bit-exact decode table
(letters A/B/C/D/F/H/Z, numeric codes 1-6 and 15/17/18/19/20/21/23/24). -/
def specCSIRows : List (String × String) :=
  [("A", "KEY_UP"), ("B", "KEY_DOWN"), ("C", "KEY_RIGHT"), ("D", "KEY_LEFT"),
   ("F", "KEY_END"), ("H", "KEY_HOME"), ("Z", "KEY_TAB"),
   ("1", "KEY_HOME"), ("2", "KEY_INSERT"), ("3", "KEY_DELETE"),
   ("4", "KEY_END"), ("5", "KEY_PAGE_UP"), ("6", "KEY_PAGE_DOWN"),
   ("15", "KEY_F5"), ("17", "KEY_F6"), ("18", "KEY_F7"), ("19", "KEY_F8"),
   ("20", "KEY_F9"), ("21", "KEY_F10"), ("23", "KEY_F11"), ("24", "KEY_F12")]

/-- A canonical encoding for every named key, drawn from the decode tables:
the control byte for the directly mapped keys, the `ESC O` sequence for
F1-F4, a CSI letter sequence for the arrows, END and HOME, and a CSI numeric
sequence for the remaining navigation and function keys. -/
def canonChars : String → List Char
  | "KEY_BACKSPACE" => ['\x08']
  | "KEY_TAB" => ['\x09']
  | "KEY_ENTER" => ['\x0a']
  | "KEY_ESC" => ['\x1b']
  | "KEY_SPACE" => [' ']
  | "KEY_F1" => ['\x1b', 'O', 'P']
  | "KEY_F2" => ['\x1b', 'O', 'Q']
  | "KEY_F3" => ['\x1b', 'O', 'R']
  | "KEY_F4" => ['\x1b', 'O', 'S']
  | "KEY_UP" => ['\x1b', '[', 'A']
  | "KEY_DOWN" => ['\x1b', '[', 'B']
  | "KEY_RIGHT" => ['\x1b', '[', 'C']
  | "KEY_LEFT" => ['\x1b', '[', 'D']
  | "KEY_END" => ['\x1b', '[', 'F']
  | "KEY_HOME" => ['\x1b', '[', 'H']
  | "KEY_INSERT" => ['\x1b', '[', '2', '~']
  | "KEY_DELETE" => ['\x1b', '[', '3', '~']
  | "KEY_PAGE_UP" => ['\x1b', '[', '5', '~']
  | "KEY_PAGE_DOWN" => ['\x1b', '[', '6', '~']
  | "KEY_F5" => ['\x1b', '[', '1', '5', '~']
  | "KEY_F6" => ['\x1b', '[', '1', '7', '~']
  | "KEY_F7" => ['\x1b', '[', '1', '8', '~']
  | "KEY_F8" => ['\x1b', '[', '1', '9', '~']
  | "KEY_F9" => ['\x1b', '[', '2', '0', '~']
  | "KEY_F10" => ['\x1b', '[', '2', '1', '~']
  | "KEY_F11" => ['\x1b', '[', '2', '3', '~']
  | "KEY_F12" => ['\x1b', '[', '2', '4', '~']
  | _ => []

/-- Concatenation of the canonical encodings of a list of keys. -/
def encodeAll : List String → List Char
  | [] => []
  | k :: ks => canonChars k ++ encodeAll ks

/-- First character of a run that cannot extend a preceding lone `ESC` byte
into an escape sequence.  Every canonical encoding starts with such a
character (`ESC` itself or one of the directly mapped control bytes). -/
def ctrlHeadOk : List Char → Bool
  | [] => true
  | c :: _ =>
    c == '\x08' || c == '\x09' || c == '\x0a' || c == '\x1b' || c == ' '

example : ∀ k ∈ namedKeys, canonChars k ≠ [] ∧ ctrlHeadOk (canonChars k) = true := by
  decide

/-! ## Basic lemmas about the decode loop -/

theorem decodeLoop_nil (f : Nat) : decodeLoop f [] = ([], none) := by
  cases f <;> rfl

theorem decodeLoop_succ_cons (f : Nat) (c : Char) (cs : List Char) :
    decodeLoop (f + 1) (c :: cs) =
      match decodeStep (c :: cs) with
      | .error e => ([], some e)
      | .ok (k, m) =>
        let r := decodeLoop f ((c :: cs).drop (m + 1))
        (k :: r.1, r.2) := rfl

/-- The result of the loop does not depend on the fuel, as long as the fuel
is at least the length of the input: every iteration drops at least one
character. -/
theorem decodeLoop_fuel_eq : ∀ (f₁ f₂ : Nat) (data : List Char),
    data.length ≤ f₁ → data.length ≤ f₂ → decodeLoop f₁ data = decodeLoop f₂ data := by
  intro f₁
  induction f₁ with
  | zero =>
    intro f₂ data h₁ _
    have hd : data = [] := List.eq_nil_of_length_eq_zero (Nat.le_zero.mp h₁)
    subst hd
    rw [decodeLoop_nil, decodeLoop_nil]
  | succ n ih =>
    intro f₂ data h₁ h₂
    cases data with
    | nil => rw [decodeLoop_nil, decodeLoop_nil]
    | cons c cs =>
      cases f₂ with
      | zero => exact absurd h₂ (by simp)
      | succ m =>
        rw [decodeLoop_succ_cons, decodeLoop_succ_cons]
        cases hstep : decodeStep (c :: cs) with
        | error e => rfl
        | ok km =>
          have hlen : ((c :: cs).drop (km.2 + 1)).length ≤ n := by
            simp only [List.length_drop, List.length_cons]
            simp only [List.length_cons] at h₁
            omega
          have hlen' : ((c :: cs).drop (km.2 + 1)).length ≤ m := by
            simp only [List.length_drop, List.length_cons]
            simp only [List.length_cons] at h₂
            omega
          simp only [ih m _ hlen hlen']

/-- Decoding one canonical encoding at the front of a run: exactly the
encoded key is produced and exactly the encoding is consumed, provided the
remaining run does not begin with a character that could extend a lone `ESC`
into an escape sequence (which holds whenever the remainder is itself a
concatenation of canonical encodings). -/
theorem decodeStep_canon (k : String) (hk : k ∈ namedKeys) (rest : List Char)
    (hr : ctrlHeadOk rest = true) :
    decodeStep (canonChars k ++ rest) = .ok (k, (canonChars k).length - 1) := by
  have hesc : decodeStep ('\x1b' :: rest) = .ok ("KEY_ESC", 0) := by
    cases rest with
    | nil => rfl
    | cons c rs =>
      simp only [ctrlHeadOk, Bool.or_eq_true, beq_iff_eq] at hr
      rcases hr with (((rfl | rfl) | rfl) | rfl) | rfl <;> rfl
  fin_cases hk <;> first | exact hesc | rfl

theorem canonChars_ne_nil_and_head : ∀ k ∈ namedKeys,
    canonChars k ≠ [] ∧ ctrlHeadOk (canonChars k) = true := by decide

theorem ctrlHeadOk_append (l r : List Char) (h : l ≠ []) :
    ctrlHeadOk (l ++ r) = ctrlHeadOk l := by
  cases l with
  | nil => exact absurd rfl h
  | cons c cs => rfl

theorem encodeAll_ctrlHeadOk (ks : List String) (h : ∀ k ∈ ks, k ∈ namedKeys) :
    ctrlHeadOk (encodeAll ks) = true := by
  cases ks with
  | nil => rfl
  | cons k ks' =>
    have hk := canonChars_ne_nil_and_head k (h k (by simp))
    show ctrlHeadOk (canonChars k ++ encodeAll ks') = true
    rw [ctrlHeadOk_append _ _ hk.1]
    exact hk.2

/-- Decoding a concatenation of canonical encodings yields exactly the
encoded keys, in order, with no error, for any sufficient fuel. -/
theorem decodeLoop_encodeAll (ks : List String) (h : ∀ k ∈ ks, k ∈ namedKeys) :
    ∀ fuel, (encodeAll ks).length ≤ fuel →
      decodeLoop fuel (encodeAll ks) = (ks, none) := by
  induction ks with
  | nil => intro fuel _; exact decodeLoop_nil fuel
  | cons k ks' ih =>
    intro fuel hf
    have hk : k ∈ namedKeys := h k (by simp)
    have hcp := canonChars_ne_nil_and_head k hk
    have hhead : ctrlHeadOk (encodeAll ks') = true :=
      encodeAll_ctrlHeadOk ks' (fun x hx => h x (List.mem_cons_of_mem _ hx))
    have hstep := decodeStep_canon k hk (encodeAll ks') hhead
    obtain ⟨c, cs, hcanon⟩ : ∃ c cs, canonChars k = c :: cs := by
      cases hcn : canonChars k with
      | nil => exact absurd hcn hcp.1
      | cons c cs => exact ⟨c, cs, rfl⟩
    have hEA : encodeAll (k :: ks') = canonChars k ++ encodeAll ks' := rfl
    rw [hEA] at hf ⊢
    rw [hcanon] at hf hstep ⊢
    rw [List.cons_append] at hf hstep ⊢
    cases fuel with
    | zero => simp at hf
    | succ n =>
      have hflen : (encodeAll ks').length ≤ n := by
        simp only [List.length_cons, List.length_append] at hf
        omega
      rw [decodeLoop_succ_cons]
      simp only [hstep, List.length_cons, Nat.add_sub_cancel, List.drop_succ_cons,
        List.drop_left]
      rw [ih (fun x hx => h x (List.mem_cons_of_mem _ hx)) n hflen]

/-! ## Lookup characterization -/

/-- A `find?`-based dictionary lookup over an association list with distinct
keys returns exactly the pairs of the list. -/
theorem find?_map_eq_some_iff {α β : Type} [DecidableEq α] :
    ∀ (t : List (α × β)), (t.map Prod.fst).Nodup → ∀ (a : α) (b : β),
      (((t.find? (fun p => p.1 = a)).map (·.2) = some b) ↔ (a, b) ∈ t) := by
  intro t
  induction t with
  | nil => intro _ a b; simp
  | cons p t ih =>
    intro hnd a b
    obtain ⟨x, y⟩ := p
    simp only [List.map_cons] at hnd
    obtain ⟨h1, h2⟩ := List.nodup_cons.mp hnd
    by_cases hx : x = a
    · subst hx
      rw [List.find?_cons_of_pos _ (by simp)]
      simp only [Option.map_some']
      constructor
      · intro hb
        have hyb : y = b := by simpa using hb
        subst hyb
        exact List.mem_cons_self _ _
      · intro hb
        rcases List.mem_cons.mp hb with heq | hmem
        · have : b = y := congrArg Prod.snd heq
          simp [this]
        · exact absurd (List.mem_map_of_mem Prod.fst hmem) h1
    · rw [List.find?_cons_of_neg _ (by simp [hx])]
      rw [ih h2 a b]
      constructor
      · exact fun h => List.mem_cons_of_mem _ h
      · intro h
        rcases List.mem_cons.mp h with heq | hmem
        · exact absurd (congrArg Prod.fst heq).symm hx
        · exact hmem

/-- C2: the decode tables contain exactly the mappings listed in the spec's
bit-exact table and no others, and the named-key namespace is exactly the
spec's 27-key list. -/
theorem decode_tables_bitexact :
    (∀ n v, keysLookup n = some v ↔ (n, v) ∈ specByteRows) ∧
    (∀ n v, ss3Lookup n = some v ↔ (n, v) ∈ specSS3Rows) ∧
    (∀ c v, csiLookup c = some v ↔ (c, v) ∈ specCSIRows) ∧
    namedKeys.Perm specNamespace ∧ namedKeys.Nodup := by
  refine ⟨?_, ?_, ?_, by decide, by decide⟩
  · intro n v
    rw [show keysLookup n = ((Keys.KEYS_TABLE.find? (fun p => p.1 = n)).map (·.2))
      from rfl]
    rw [find?_map_eq_some_iff Keys.KEYS_TABLE (by decide) n v]
    exact List.Perm.mem_iff (by decide)
  · intro n v
    rw [show ss3Lookup n = ((Keys.SS3_MAPPING.find? (fun p => p.1 = n)).map (·.2))
      from rfl]
    rw [find?_map_eq_some_iff Keys.SS3_MAPPING (by decide) n v]
    exact List.Perm.mem_iff (by decide)
  · intro c v
    rw [show csiLookup c = ((Keys.CSI_TABLE.find? (fun p => p.1 = c)).map (·.2))
      from rfl]
    rw [find?_map_eq_some_iff Keys.CSI_TABLE (by decide) c v]
    exact List.Perm.mem_iff (by decide)

/-- C3: decoding the concatenation of the canonical encodings of named keys
k1..kN yields exactly the tokens [k1,...,kN] in order with no error; in
particular a single canonical encoding decodes to exactly one token equal to
the key, and the run consisting of the lone byte 27 decodes to exactly the
ESC named key. -/
theorem decode_canonical_roundtrip (ks : List String)
    (h : ∀ k ∈ ks, k ∈ namedKeys) :
    decodeRun (encodeAll ks) = (ks, none) ∧
    (∀ k ∈ namedKeys, decodeRun (canonChars k) = ([k], none)) ∧
    decodeRun ['\x1b'] = ([Keys.ESC], none) := by
  refine ⟨decodeLoop_encodeAll ks h _ le_rfl, ?_, by decide⟩
  intro k hk
  have h1 := decodeLoop_encodeAll [k] (by simpa using hk) (encodeAll [k]).length le_rfl
  have h2 : encodeAll [k] = canonChars k := by
    show canonChars k ++ [] = canonChars k
    exact List.append_nil _
  rw [h2] at h1
  exact h1

theorem decode_canonical_roundtrip_witness :
    decodeRun (encodeAll [Keys.UP, Keys.F5, Keys.ESC]) =
      ([Keys.UP, Keys.F5, Keys.ESC], none) :=
  (decode_canonical_roundtrip [Keys.UP, Keys.F5, Keys.ESC] (by decide)).1

/-- C1 counterexample: on the run `ESC '[' '9' '9' '~' 'a'` the claim
predicts that the unknown sequence is discarded and decoding resumes at the
next unconsumed byte, producing the literal token "a"; in the code the
KeyError from the table lookup aborts the whole `_read_into_buffer` call, so
the run produces no tokens at all and the trailing byte is lost. -/
theorem unknown_csi_counterexample :
    decodeRun ['\x1b', '[', '9', '9', '~', 'a'] =
      ([], some (DecodeError.unknownCSI "99")) ∧
    (DecodeError.unknownCSI "99").isUnknownSequence = true ∧
    (decodeRun ['\x1b', '[', '9', '9', '~', 'a']).1 ≠ ["a"] := by decide

/-- The standard CSI branch on a non-digit third character: the terminator
is looked up as a one-character code, whatever it is. -/
theorem decodeStep_csi_letter (c2 : Char) (rtail : List Char)
    (hnd : ¬('0' ≤ c2 ∧ c2 ≤ '9')) :
    decodeStep ('\x1b' :: '[' :: c2 :: rtail) =
      (match csiLookup (String.mk [c2]) with
        | none => .error (.unknownCSI (String.mk [c2]))
        | some k => .ok (k, 2)) := by
  rw [decodeStep.eq_def]
  split
  case h_1 r heq => exact absurd heq (by simp)
  case h_2 r heq =>
    simp only [List.cons.injEq] at heq
    exact absurd heq.2.2.1 (fun h => hnd (h ▸ (by decide)))
  case h_3 x r hno heq =>
    simp only [List.cons.injEq] at heq
    obtain ⟨-, -, hr⟩ := heq
    subst hr
    dsimp only
    rw [if_neg hnd]
  case h_4 x a tl hn1 hn2 hn3 heq =>
    simp only [List.cons.injEq] at heq
    obtain ⟨ha, htl⟩ := heq
    exact absurd htl.symm (hn3 (c2 :: rtail) ha.symm)
  case h_5 heq => exact absurd heq (by simp)

/-- The standard CSI branch on a digit third character, when the run is not
an extended sequence and a `~` is present: the extracted numeric code is
looked up, whatever it is. -/
theorem decodeStep_csi_numeric (c2 : Char) (rtail : List Char)
    (hdig : '0' ≤ c2 ∧ c2 ≤ '9')
    (hnotext : c2 = '1' → rtail.head? ≠ some ';')
    (htilde : ('\x1b' :: '[' :: c2 :: rtail).contains '~' = true) :
    decodeStep ('\x1b' :: '[' :: c2 :: rtail) =
      (match csiLookup (String.mk (csiCode c2 rtail)) with
        | none => .error (.unknownCSI (String.mk (csiCode c2 rtail)))
        | some k => .ok (k, pyIndex '~' ('\x1b' :: '[' :: c2 :: rtail))) := by
  rw [decodeStep.eq_def]
  split
  case h_1 r heq => exact absurd heq (by simp)
  case h_2 r heq =>
    simp only [List.cons.injEq] at heq
    obtain ⟨-, -, hc1, hr⟩ := heq
    subst hr
    exact absurd rfl (hnotext hc1)
  case h_3 x r hno heq =>
    simp only [List.cons.injEq] at heq
    obtain ⟨-, -, hr⟩ := heq
    subst hr
    dsimp only
    rw [if_pos hdig, if_pos htilde]
    rfl
  case h_4 x a tl hn1 hn2 hn3 heq =>
    simp only [List.cons.injEq] at heq
    obtain ⟨ha, htl⟩ := heq
    exact absurd htl.symm (hn3 (c2 :: rtail) ha.symm)
  case h_5 heq => exact absurd heq (by simp)

/-- On a run that does take the extended branch, the extracted numeric code
would have been `1`, which is always mapped (to HOME): the pre-semicolon
split truncates everything after the first `;`. -/
theorem csiCode_one_semicolon (r : List Char) : csiCode '1' (';' :: r) = ['1'] := by
  unfold csiCode
  dsimp only
  have hpos : pyIndex '~' ('\x1b' :: '[' :: '1' :: ';' :: r) =
      pyIndex '~' r + 4 := by
    rw [pyIndex, if_neg (by decide), pyIndex, if_neg (by decide),
      pyIndex, if_neg (by decide), pyIndex, if_neg (by decide)]
  rw [hpos]
  have h2 : pyIndex '~' r + 4 - 2 = pyIndex '~' r + 2 := by omega
  rw [List.drop_succ_cons, List.drop_succ_cons, List.drop_zero, h2]
  rw [show pyIndex '~' r + 2 = (pyIndex '~' r + 1) + 1 from rfl]
  rw [List.take_succ_cons, List.take_succ_cons]
  rw [if_pos (by simp [List.contains_cons])]
  rw [List.takeWhile_cons_of_pos (by decide)]
  rw [List.takeWhile_cons_of_neg (by decide)]

theorem ctrlHeadOk_encodeAll_append (ks : List String)
    (h : ∀ k ∈ ks, k ∈ namedKeys) (bad : List Char)
    (hb : ctrlHeadOk bad = true) :
    ctrlHeadOk (encodeAll ks ++ bad) = true := by
  cases ks with
  | nil => simpa using hb
  | cons k ks' =>
    have hk := canonChars_ne_nil_and_head k (h k (by simp))
    rw [show encodeAll (k :: ks') = canonChars k ++ encodeAll ks' from rfl,
      List.append_assoc, ctrlHeadOk_append _ _ hk.1]
    exact hk.2

/-- Decoding a run made of canonical encodings followed by arbitrary further
input: the encoded keys come out first, and the loop then continues exactly
as it would on the further input alone. -/
theorem decodeLoop_encodeAll_append (ks : List String)
    (h : ∀ k ∈ ks, k ∈ namedKeys) (bad : List Char)
    (hb : ctrlHeadOk bad = true) :
    ∀ fuel, (encodeAll ks ++ bad).length ≤ fuel →
      decodeLoop fuel (encodeAll ks ++ bad) =
        (ks ++ (decodeRun bad).1, (decodeRun bad).2) := by
  induction ks with
  | nil =>
    intro fuel hf
    have he : encodeAll [] = ([] : List Char) := rfl
    rw [he, List.nil_append] at hf ⊢
    rw [List.nil_append]
    exact decodeLoop_fuel_eq fuel bad.length bad hf le_rfl
  | cons k ks' ih =>
    intro fuel hf
    have hk : k ∈ namedKeys := h k (by simp)
    have hcp := canonChars_ne_nil_and_head k hk
    have hhead : ctrlHeadOk (encodeAll ks' ++ bad) = true :=
      ctrlHeadOk_encodeAll_append ks' (fun x hx => h x (List.mem_cons_of_mem _ hx))
        bad hb
    have hstep := decodeStep_canon k hk (encodeAll ks' ++ bad) hhead
    obtain ⟨c, cs, hcanon⟩ : ∃ c cs, canonChars k = c :: cs := by
      cases hcn : canonChars k with
      | nil => exact absurd hcn hcp.1
      | cons c cs => exact ⟨c, cs, rfl⟩
    have hEA : encodeAll (k :: ks') ++ bad =
        canonChars k ++ (encodeAll ks' ++ bad) := by
      rw [show encodeAll (k :: ks') = canonChars k ++ encodeAll ks' from rfl,
        List.append_assoc]
    rw [hEA] at hf ⊢
    rw [hcanon] at hf hstep ⊢
    rw [List.cons_append] at hf hstep ⊢
    cases fuel with
    | zero => simp at hf
    | succ n =>
      have hflen : (encodeAll ks' ++ bad).length ≤ n := by
        simp only [List.length_cons, List.length_append] at hf ⊢
        omega
      rw [decodeLoop_succ_cons]
      simp only [hstep, List.length_cons, Nat.add_sub_cancel, List.drop_succ_cons,
        List.drop_left]
      rw [ih (fun x hx => h x (List.mem_cons_of_mem _ hx)) n hflen]
      rfl

/-- A decode error raised by the first loop iteration aborts the call with
no tokens. -/
theorem decodeRun_of_step_error (c : Char) (cs : List Char) (e : DecodeError)
    (h : decodeStep (c :: cs) = .error e) :
    decodeRun (c :: cs) = ([], some e) := by
  rw [show decodeRun (c :: cs) = decodeLoop (cs.length + 1) (c :: cs) from rfl,
    decodeLoop_succ_cons, h]

/-- C1 amended: whenever the decoder reaches a recognized standard CSI
sequence whose letter terminator or extracted numeric code has no table
entry — here after any preceding sequence of canonically encoded keys,
whose tokens are kept — the call fails with the UnknownSequence error and
the failing sequence produces zero tokens and is never re-emitted as
literal-character tokens; but instead of resuming at the next unconsumed
byte the error aborts the decode call, discarding all remaining bytes of
the run; the decoder keeps no state across calls, so a later, separate
decode call on subsequent input decodes cleanly.  A run merely containing
such a sequence at a position the decoder never reaches can decode
cleanly (last conjunct: the numeric branch swallows the embedded
`ESC '[' '9' '9' '~'` while scanning to the first `~`). -/
theorem unknown_csi_aborts_run (ks : List String)
    (hks : ∀ k ∈ ks, k ∈ namedKeys) (c2 : Char) (rtail : List Char) :
    (¬('0' ≤ c2 ∧ c2 ≤ '9') → csiLookup (String.mk [c2]) = none →
      decodeRun (encodeAll ks ++ ('\x1b' :: '[' :: c2 :: rtail)) =
        (ks, some (DecodeError.unknownCSI (String.mk [c2]))) ∧
      (DecodeError.unknownCSI (String.mk [c2])).isUnknownSequence = true) ∧
    (('0' ≤ c2 ∧ c2 ≤ '9') → ('\x1b' :: '[' :: c2 :: rtail).contains '~' = true →
      csiLookup (String.mk (csiCode c2 rtail)) = none →
      decodeRun (encodeAll ks ++ ('\x1b' :: '[' :: c2 :: rtail)) =
        (ks, some (DecodeError.unknownCSI (String.mk (csiCode c2 rtail)))) ∧
      (DecodeError.unknownCSI (String.mk (csiCode c2 rtail))).isUnknownSequence
        = true) ∧
    (∀ next, (∀ k ∈ next, k ∈ namedKeys) →
      decodeRun (encodeAll next) = (next, none)) ∧
    decodeRun ['\x1b', '[', '5', ';', '\x1b', '[', '9', '9', '~'] =
      ([Keys.PAGE_UP], none) := by
  have hb : ctrlHeadOk ('\x1b' :: '[' :: c2 :: rtail) = true := rfl
  have happ : decodeRun (encodeAll ks ++ ('\x1b' :: '[' :: c2 :: rtail)) =
      (ks ++ (decodeRun ('\x1b' :: '[' :: c2 :: rtail)).1,
        (decodeRun ('\x1b' :: '[' :: c2 :: rtail)).2) :=
    decodeLoop_encodeAll_append ks hks _ hb _ le_rfl
  refine ⟨?_, ?_, fun next hn => decodeLoop_encodeAll next hn _ le_rfl, by decide⟩
  · intro hnd hnone
    have hstep := decodeStep_csi_letter c2 rtail hnd
    simp only [hnone] at hstep
    have hbad := decodeRun_of_step_error _ _ _ hstep
    refine ⟨?_, rfl⟩
    rw [happ, hbad]
    simp
  · intro hdig htilde hnone
    by_cases hext : c2 = '1' ∧ rtail.head? = some ';'
    · exfalso
      obtain ⟨rfl, hhd⟩ := hext
      obtain ⟨r, rfl⟩ : ∃ r, rtail = ';' :: r := by
        cases rtail with
        | nil => simp at hhd
        | cons a r =>
          simp at hhd
          exact ⟨r, by rw [hhd]⟩
      rw [csiCode_one_semicolon] at hnone
      exact absurd hnone (by decide)
    · have hnotext : c2 = '1' → rtail.head? ≠ some ';' := by
        intro h1 h2
        exact hext ⟨h1, h2⟩
      have hstep := decodeStep_csi_numeric c2 rtail hdig hnotext htilde
      simp only [hnone] at hstep
      have hbad := decodeRun_of_step_error _ _ _ hstep
      refine ⟨?_, rfl⟩
      rw [happ, hbad]
      simp

/-- C4: a run that begins with a recognized escape-family prefix but has
fewer characters than the family's minimum length (3 for SS3, 6 for the
extended sequence, 3 for standard CSI) makes the decode call fail with the
corresponding MalformedSequence-class error (an out-of-range index or a
failing length assertion — never an out-of-bounds read) and produce no
tokens. -/
theorem malformed_too_short (data : List Char) :
    ((∃ t, data = '\x1b' :: 'O' :: t) → data.length < 3 →
      decodeRun data = ([], some DecodeError.ss3IndexError) ∧
      DecodeError.ss3IndexError.isMalformedSequence = true) ∧
    ((∃ t, data = '\x1b' :: '[' :: '1' :: ';' :: t) → data.length < 6 →
      decodeRun data = ([], some DecodeError.extTooShort) ∧
      DecodeError.extTooShort.isMalformedSequence = true) ∧
    ((∃ t, data = '\x1b' :: '[' :: t) → data.length < 3 →
      decodeRun data = ([], some DecodeError.csiTooShort) ∧
      DecodeError.csiTooShort.isMalformedSequence = true) := by
  refine ⟨?_, ?_, ?_⟩
  · rintro ⟨t, rfl⟩ hlen
    have ht : t = [] := by
      simp only [List.length_cons] at hlen
      exact List.eq_nil_of_length_eq_zero (by omega)
    subst ht
    exact ⟨by decide, rfl⟩
  · rintro ⟨t, rfl⟩ hlen
    simp only [List.length_cons] at hlen
    match t, hlen with
    | [], _ => exact ⟨by decide, rfl⟩
    | [c], _ =>
      refine ⟨?_, rfl⟩
      have hstep : decodeStep ['\x1b', '[', '1', ';', c] =
          .error .extTooShort := rfl
      show decodeLoop (['\x1b', '[', '1', ';', c].length)
          ['\x1b', '[', '1', ';', c] = _
      simp only [List.length_cons, List.length_nil]
      rw [decodeLoop_succ_cons, hstep]
    | _ :: _ :: _, hlen =>
      simp only [List.length_cons] at hlen
      omega
  · rintro ⟨t, rfl⟩ hlen
    have ht : t = [] := by
      simp only [List.length_cons] at hlen
      exact List.eq_nil_of_length_eq_zero (by omega)
    subst ht
    exact ⟨by decide, rfl⟩

theorem malformed_too_short_witness :
    decodeRun ['\x1b', 'O'] = ([], some DecodeError.ss3IndexError) ∧
    DecodeError.ss3IndexError.isMalformedSequence = true :=
  (malformed_too_short ['\x1b', 'O']).1 ⟨[], rfl⟩ (by decide)

/-- C9: for an extended sequence `ESC '[' '1' ';' m t` with at least six
characters available, the decode result depends only on the terminator `t`
and the rest of the run, never on the modifier character `m`: two runs that
differ only in the modifier decode identically, and a successful step
consumes exactly six characters. -/
theorem extended_csi_modifier_independent (m₁ m₂ t : Char) (rest : List Char) :
    decodeRun ('\x1b' :: '[' :: '1' :: ';' :: m₁ :: t :: rest) =
      decodeRun ('\x1b' :: '[' :: '1' :: ';' :: m₂ :: t :: rest) ∧
    decodeStep ('\x1b' :: '[' :: '1' :: ';' :: m₁ :: t :: rest) =
      decodeStep ('\x1b' :: '[' :: '1' :: ';' :: m₂ :: t :: rest) ∧
    (∀ k n, decodeStep ('\x1b' :: '[' :: '1' :: ';' :: m₁ :: t :: rest) =
      .ok (k, n) → n + 1 = 6) := by
  have hs : ∀ m : Char,
      decodeStep ('\x1b' :: '[' :: '1' :: ';' :: m :: t :: rest) =
        (match csiLookup (String.mk [t]) with
          | none => .error (.unknownCSI (String.mk [t]))
          | some k => .ok (k, 5)) := fun _ => rfl
  refine ⟨?_, (hs m₁).trans (hs m₂).symm, ?_⟩
  · show decodeLoop _ _ = decodeLoop _ _
    simp only [List.length_cons]
    rw [decodeLoop_succ_cons, decodeLoop_succ_cons, hs m₁, hs m₂]
    cases csiLookup (String.mk [t]) with
    | none => rfl
    | some k => simp only [List.drop_succ_cons]
  · intro k n hk
    rw [hs m₁] at hk
    cases hcl : csiLookup (String.mk [t]) with
    | none => rw [hcl] at hk; cases hk
    | some k' =>
      rw [hcl] at hk
      cases hk
      rfl

/-- C10: every successful iteration of the decode loop consumes at least one
character (so the remaining length strictly decreases until the run is
empty): exactly 3 characters for an SS3 sequence, exactly 6 for an extended
sequence, at least 3 for a standard CSI sequence, and exactly 1 for a direct
byte. -/
theorem decodeStep_progress (data : List Char) (k : String) (m : Nat)
    (h : decodeStep data = .ok (k, m)) :
    data ≠ [] ∧ (data.drop (m + 1)).length < data.length ∧
    (∀ rest, data = '\x1b' :: 'O' :: rest → m + 1 = 3) ∧
    (∀ rest, data = '\x1b' :: '[' :: '1' :: ';' :: rest → m + 1 = 6) ∧
    (∀ c rest, data = '\x1b' :: '[' :: c :: rest →
      (c = '1' → rest.head? ≠ some ';') → 3 ≤ m + 1) ∧
    (∀ c rest, data = c :: rest → c ≠ '\x1b' → m + 1 = 1) := by
  have hne : data ≠ [] := by
    intro hnil
    rw [hnil] at h
    exact Except.noConfusion h
  refine ⟨hne, ?_, ?_, ?_, ?_, ?_⟩
  · have hpos : 0 < data.length := List.length_pos.mpr hne
    simp only [List.length_drop]
    omega
  · rintro rest rfl
    cases rest with
    | nil => exact Except.noConfusion h
    | cons c rs =>
      have hu : decodeStep ('\x1b' :: 'O' :: c :: rs) =
          (match ss3Lookup c.toNat with
            | none => Except.error (.unknownSS3 c.toNat)
            | some k => Except.ok (k, 2)) := rfl
      rw [hu] at h
      cases hl : ss3Lookup c.toNat with
      | none => rw [hl] at h; exact Except.noConfusion h
      | some k' => rw [hl] at h; cases h; rfl
  · rintro rest rfl
    match rest, h with
    | [], h => exact Except.noConfusion h
    | [c], h => exact Except.noConfusion h
    | c1 :: c2 :: rs, h =>
      have hu : decodeStep ('\x1b' :: '[' :: '1' :: ';' :: c1 :: c2 :: rs) =
          (match csiLookup (String.mk [c2]) with
            | none => Except.error (.unknownCSI (String.mk [c2]))
            | some k => Except.ok (k, 5)) := rfl
      rw [hu] at h
      cases hl : csiLookup (String.mk [c2]) with
      | none => rw [hl] at h; exact Except.noConfusion h
      | some k' => rw [hl] at h; cases h; rfl
  · rintro c rest rfl hnotext
    rw [decodeStep.eq_def] at h
    split at h
    case h_1 r heq => exact absurd heq (by simp)
    case h_2 r heq =>
      simp only [List.cons.injEq] at heq
      obtain ⟨-, -, hc1, hr⟩ := heq
      subst hr
      exact absurd rfl (hnotext hc1)
    case h_3 x r hno heq =>
      simp only [List.cons.injEq] at heq
      obtain ⟨-, -, hr⟩ := heq
      subst hr
      split at h
      case h_1 => exact Except.noConfusion h
      case h_2 x' xs' heq2 =>
        simp only [List.cons.injEq] at heq2
        obtain ⟨rfl, rfl⟩ : x' = c ∧ xs' = rest := ⟨heq2.1.symm, heq2.2.symm⟩
        split at h
        · dsimp only at h
          split at h
          · split at h
            · exact Except.noConfusion h
            · simp only [Except.ok.injEq, Prod.mk.injEq] at h
              obtain ⟨-, hm⟩ := h
              have h1 : pyIndex '~' ('\x1b' :: '[' :: x' :: xs') =
                  pyIndex '~' (x' :: xs') + 1 + 1 := by
                rw [pyIndex, if_neg (by decide), pyIndex, if_neg (by decide)]
              omega
          · exact Except.noConfusion h
        · split at h
          · exact Except.noConfusion h
          · simp only [Except.ok.injEq, Prod.mk.injEq] at h
            omega
    case h_4 x a tl hn1 hn2 hn3 heq =>
      simp only [List.cons.injEq] at heq
      obtain ⟨ha, htl⟩ := heq
      exact absurd htl.symm (hn3 (c :: rest) ha.symm)
    case h_5 => simp at h
  · rintro c rest rfl hc
    rw [decodeStep.eq_def] at h
    split at h <;> simp_all

theorem decodeStep_progress_witness :
    ((['a'] : List Char).drop (0 + 1)).length < (['a'] : List Char).length :=
  (decodeStep_progress ['a'] "a" 0 rfl).2.1

/-! ## Terminal-lifecycle and buffer claims -/

/-- C5: a second acquire while the singleton slot is owned fails with
ExclusivityViolation and mutates neither the terminal state nor the owner
slot (the assertion is the first statement of the method); an acquire on an
unowned slot captures the current attribute snapshot, switches the terminal
to character-at-a-time mode (canonical processing and echo off), and records
the caller as owner. -/
theorem enter_exclusivity (self : Nat) (s : KeyboardState) :
    (s.owner.isSome = true →
      Keyboard.enter self s = (s, some KbdError.exclusivityViolation)) ∧
    (s.owner = none →
      Keyboard.enter self s =
        ({ s with owner := some self, saved := some s.attrs,
                  attrs := setcbreak s.attrs }, none) ∧
      (setcbreak s.attrs).icanon = false ∧ (setcbreak s.attrs).echo = false) := by
  constructor
  · intro h
    simp [Keyboard.enter, h]
  · intro h
    refine ⟨?_, rfl, rfl⟩
    simp [Keyboard.enter, h]

theorem enter_exclusivity_witness :
    Keyboard.enter 1 ⟨some 0, ⟨true, true, 7⟩, none, []⟩ =
      (⟨some 0, ⟨true, true, 7⟩, none, []⟩, some KbdError.exclusivityViolation) ∧
    Keyboard.enter 1 ⟨none, ⟨true, true, 7⟩, none, []⟩ =
      (⟨some 1, ⟨false, false, 7⟩, some ⟨true, true, 7⟩, []⟩, none) :=
  ⟨(enter_exclusivity 1 ⟨some 0, ⟨true, true, 7⟩, none, []⟩).1 rfl,
   ((enter_exclusivity 1 ⟨none, ⟨true, true, 7⟩, none, []⟩).2 rfl).1⟩

/-- C6: release by a non-owner fails with NotOwner; release by the owner
restores the attribute snapshot saved at acquisition verbatim and clears the
owner slot back to unowned; composing release after acquire restores the
exact pre-acquisition attributes. -/
theorem exit_restores (self : Nat) (s : KeyboardState) :
    (s.owner ≠ some self →
      Keyboard.exit self s = (s, some KbdError.notOwner)) ∧
    (∀ a, s.owner = some self → s.saved = some a →
      Keyboard.exit self s =
        ({ s with attrs := a, saved := none, owner := none }, none)) ∧
    (s.owner = none →
      (Keyboard.exit self (Keyboard.enter self s).1).1.attrs = s.attrs ∧
      (Keyboard.exit self (Keyboard.enter self s).1).1.owner = none ∧
      (Keyboard.exit self (Keyboard.enter self s).1).2 = none) := by
  refine ⟨?_, ?_, ?_⟩
  · intro h
    simp [Keyboard.exit, h]
  · intro a hown hsaved
    simp [Keyboard.exit, hown, hsaved]
  · intro h
    have henter : (Keyboard.enter self s).1 =
        { s with owner := some self, saved := some s.attrs,
                 attrs := setcbreak s.attrs } := by
      simp [Keyboard.enter, h]
    rw [henter]
    simp [Keyboard.exit]

theorem exit_restores_witness :
    Keyboard.exit 1 ⟨some 0, ⟨false, false, 3⟩, some ⟨true, true, 3⟩, []⟩ =
      (⟨some 0, ⟨false, false, 3⟩, some ⟨true, true, 3⟩, []⟩,
        some KbdError.notOwner) ∧
    Keyboard.exit 0 ⟨some 0, ⟨false, false, 3⟩, some ⟨true, true, 3⟩, []⟩ =
      (⟨none, ⟨true, true, 3⟩, none, []⟩, none) :=
  ⟨(exit_restores 1 ⟨some 0, ⟨false, false, 3⟩, some ⟨true, true, 3⟩, []⟩).1
      (by decide),
   (exit_restores 0 ⟨some 0, ⟨false, false, 3⟩, some ⟨true, true, 3⟩, []⟩).2.1
      ⟨true, true, 3⟩ rfl rfl⟩

/-- On a nonempty run the decode either raises an error or produces at least
one token: every loop iteration appends a key before the next one runs. -/
theorem decodeRun_cons_shape (c : Char) (cs : List Char) :
    (∃ e, (decodeRun (c :: cs)).2 = some e) ∨
    ∃ t ts, (decodeRun (c :: cs)).1 = t :: ts := by
  rw [show decodeRun (c :: cs) = decodeLoop (cs.length + 1) (c :: cs) from rfl]
  rw [decodeLoop_succ_cons]
  cases decodeStep (c :: cs) with
  | error e => exact Or.inl ⟨e, rfl⟩
  | ok km =>
    obtain ⟨k, m⟩ := km
    exact Or.inr ⟨k, _, rfl⟩

/-- C7: getch pops and returns the front token whenever the buffer is
nonempty, without polling or reading (the pending input is untouched); with
an empty buffer, no available data and a non-blocking call it returns the
distinguished "no data" result, and that is the only way this result can be
returned; when data is available and decodes cleanly it reads all of it,
appends the resulting tokens in order and returns the front one. -/
theorem getch_contract (self : Nat) (s : KeyboardState) (pending : List Char)
    (block : Bool) (hown : s.owner = some self) :
    (∀ t ts, s.buffer = t :: ts →
      Keyboard.getch self s pending block =
        some (.ok (some t), { s with buffer := ts }, pending)) ∧
    (s.buffer = [] → pending = [] → block = false →
      Keyboard.getch self s pending block = some (.ok none, s, pending)) ∧
    (∀ s' p', Keyboard.getch self s pending block = some (.ok none, s', p') →
      s.buffer = [] ∧ pending = [] ∧ block = false ∧ s' = s ∧ p' = pending) ∧
    (∀ toks t ts, s.buffer = [] → decodeRun pending = (toks, none) →
      toks = t :: ts →
      Keyboard.getch self s pending block =
        some (.ok (some t), { s with buffer := ts }, [])) := by
  refine ⟨?_, ?_, ?_, ?_⟩
  · intro t ts hbuf
    simp [Keyboard.getch, hown, hbuf]
  · intro h1 h2 h3
    simp [Keyboard.getch, hown, h1, h2, h3]
  · intro s' p' hret
    cases hbuf : s.buffer with
    | cons t ts =>
      rw [show Keyboard.getch self s pending block =
          some (.ok (some t), { s with buffer := ts }, pending) by
        simp [Keyboard.getch, hown, hbuf]] at hret
      simp at hret
    | nil =>
      by_cases hp : pending = []
      · cases hblock : block with
        | true =>
          rw [show Keyboard.getch self s pending block = none by
            simp [Keyboard.getch, hown, hbuf, hp, hblock]] at hret
          simp at hret
        | false =>
          rw [show Keyboard.getch self s pending block =
              some (.ok none, s, pending) by
            simp [Keyboard.getch, hown, hbuf, hp, hblock]] at hret
          simp at hret
          exact ⟨rfl, hp, rfl, hret.1.symm, hret.2.symm⟩
      · obtain ⟨c, cs, hpc⟩ : ∃ c cs, pending = c :: cs := by
          cases pending with
          | nil => exact absurd rfl hp
          | cons c cs => exact ⟨c, cs, rfl⟩
        rcases decodeRun_cons_shape c cs with ⟨e, he⟩ | ⟨t, ts, ht⟩
        · rw [show Keyboard.getch self s pending block =
              some (.error (.decodeFailed e),
                { s with buffer := s.buffer ++ (decodeRun pending).1 }, []) by
            rw [hpc]
            simp [Keyboard.getch, hown, hbuf, he]] at hret
          simp at hret
        · have hsnd : (decodeRun (c :: cs)).2 = none ∨
              ∃ e, (decodeRun (c :: cs)).2 = some e := by
            cases (decodeRun (c :: cs)).2 with
            | none => exact Or.inl rfl
            | some e => exact Or.inr ⟨e, rfl⟩
          rcases hsnd with hsnd | ⟨e, hsnd⟩
          · rw [show Keyboard.getch self s pending block =
                some (.ok (some t),
                  { s with buffer := ([] : List String) ++ ts }, []) by
              rw [hpc]
              simp [Keyboard.getch, hown, hbuf, hsnd, ht]] at hret
            simp at hret
          · rw [show Keyboard.getch self s pending block =
                some (.error (.decodeFailed e),
                  { s with buffer := s.buffer ++ (decodeRun pending).1 }, []) by
              rw [hpc]
              simp [Keyboard.getch, hown, hbuf, hsnd]] at hret
            simp at hret
  · intro toks t ts hbuf hdec htoks
    by_cases hp : pending = []
    · rw [hp] at hdec
      rw [show decodeRun [] = (([] : List String), none) from rfl] at hdec
      rw [htoks] at hdec
      simp at hdec
    · subst htoks
      simp [Keyboard.getch, hown, hbuf, hp, hdec]

theorem getch_contract_witness :
    Keyboard.getch 0 ⟨some 0, ⟨true, true, 0⟩, none, []⟩ ['a'] false =
      some (.ok (some "a"), ⟨some 0, ⟨true, true, 0⟩, none, []⟩, []) :=
  (getch_contract 0 ⟨some 0, ⟨true, true, 0⟩, none, []⟩ ['a'] false rfl).2.2.2
    ["a"] "a" [] rfl (by decide) rfl

/-- C8: when clear() returns normally the token buffer is empty and the raw
input that was available at the time of the call has been fully consumed and
discarded, so an immediately following non-blocking getch with no new input
returns the "no data" result; clear polls with a zero timeout and is a total
function of the currently available input, never waiting for future
input. -/
theorem clear_contract (s s' : KeyboardState) (pending p' : List Char)
    (h : Keyboard.clear s pending = ((s', p'), none)) :
    s'.buffer = [] ∧ p' = [] ∧
    (∀ self, s'.owner = some self →
      Keyboard.getch self s' p' false = some (.ok none, s', p')) := by
  have hmain : s'.buffer = [] ∧ p' = [] := by
    rw [Keyboard.clear.eq_def] at h
    split at h
    · rename_i hp
      simp only [Prod.mk.injEq] at h
      obtain ⟨⟨hs', hp'⟩, -⟩ := h
      subst hp
      exact ⟨by rw [← hs'], hp'.symm⟩
    · dsimp only at h
      split at h
      · simp at h
      · simp only [Prod.mk.injEq] at h
        obtain ⟨⟨hs', hp'⟩, -⟩ := h
        exact ⟨by rw [← hs'], hp'.symm⟩
  refine ⟨hmain.1, hmain.2, ?_⟩
  intro self hown
  simp [Keyboard.getch, hown, hmain.1, hmain.2]

theorem clear_contract_witness :
    Keyboard.getch 0 ⟨some 0, ⟨true, true, 0⟩, none, []⟩ [] false =
      some (.ok none, ⟨some 0, ⟨true, true, 0⟩, none, []⟩, []) :=
  (clear_contract ⟨some 0, ⟨true, true, 0⟩, none, ["x"]⟩
    ⟨some 0, ⟨true, true, 0⟩, none, []⟩ ['a'] [] (by decide)).2.2 0 rfl

theorem unknown_csi_aborts_run_witness :
    decodeRun (encodeAll [Keys.UP] ++ ['\x1b', '[', '9', '9', '~', 'a']) =
      ([Keys.UP], some (DecodeError.unknownCSI "99")) ∧
    decodeRun (encodeAll [Keys.UP] ++ ['\x1b', '[', 'Q']) =
      ([Keys.UP], some (DecodeError.unknownCSI "Q")) :=
  ⟨((unknown_csi_aborts_run [Keys.UP] (by decide) '9' ['9', '~', 'a']).2.1
      (by decide) (by decide) (by decide)).1,
   ((unknown_csi_aborts_run [Keys.UP] (by decide) 'Q' []).1
      (by decide) (by decide)).1⟩

theorem decode_tables_bitexact_witness :
    keysLookup 127 = some "KEY_BACKSPACE" ∧ csiLookup "15" = some "KEY_F5" :=
  ⟨(decode_tables_bitexact.1 127 "KEY_BACKSPACE").mpr (by decide),
   (decode_tables_bitexact.2.2.1 "15" "KEY_F5").mpr (by decide)⟩

theorem extended_csi_modifier_independent_witness :
    decodeRun ['\x1b', '[', '1', ';', '2', 'A'] =
      decodeRun ['\x1b', '[', '1', ';', '5', 'A'] :=
  (extended_csi_modifier_independent '2' '5' 'A' []).1
